import Mathlib

/-!
# Verification of the AST-chunking / Merkle-diff core of `pr-agent`

Shallow embedding of `pr_agent/algo/ast/ast_chunker.py` and
`pr_agent/algo/ast/merkle_tree.py`, together with theorems settling the
frozen specification claims.

Conventions of the embedding:
* Python `str` is Lean `String`; `bytes` values are `List Nat` with each
  element below 256.
* `hashlib.sha256(...).hexdigest()` is implemented for real (FIPS 180-4 over
  `Nat` words reduced mod `2 ^ 32`), so every identifier computation is
  executable inside Lean.
* Python `dict` (insertion ordered, assignment overwrites in place) is an
  association list with an `dinsert` operation that keeps the original
  position of an overwritten key.
* The tree-sitter parser is an external dependency of the repository; the
  chunker is embedded as a function of the parse tree it receives, a tree of
  nodes exposing a kind label, byte offsets and 0-based row/column points,
  exactly the Parser Adapter contract.
-/

set_option maxRecDepth 100000

/-! ## Bytes, UTF-8 and hex encoding -/

/-- Big-endian byte serialisation of `n` on exactly `k` bytes
(the final bytes of Python's integer-to-bytes conversion). -/
def beBytes : Nat → Nat → List Nat
  | 0, _ => []
  | k + 1, n => beBytes k (n / 256) ++ [n % 256]

theorem beBytes_length (k n : Nat) : (beBytes k n).length = k := by
  induction k generalizing n with
  | zero => rfl
  | succ k ih => simp [beBytes, ih]

/-- UTF-8 encoding of a single code point, as Python `str.encode()` performs
per character. -/
def utf8EncodeChar (c : Char) : List Nat :=
  let n := c.toNat
  if n < 128 then [n]
  else if n < 2048 then [192 + n / 64, 128 + n % 64]
  else if n < 65536 then [224 + n / 4096, 128 + n / 64 % 64, 128 + n % 64]
  else [240 + n / 262144, 128 + n / 4096 % 64, 128 + n / 64 % 64, 128 + n % 64]

/-- UTF-8 encoding of a string: Python `s.encode()` / `bytes(s, 'utf8')`. -/
def utf8Bytes (s : String) : List Nat :=
  (s.data.map utf8EncodeChar).flatten

/-- The sixteen lowercase hexadecimal digit characters, in value order. -/
def hexChars : List Char := "0123456789abcdef".data

/-- Hexadecimal digit character of `n % 16`, lowercase as in Python
`hexdigest`. -/
def hexDigit (n : Nat) : Char := hexChars.getD (n % 16) '0'

/-- Two lowercase hex characters per byte: Python `bytes.hex()` /
`hexdigest` layout. -/
def bytesToHex : List Nat → List Char
  | [] => []
  | b :: bs => hexDigit (b / 16) :: hexDigit b :: bytesToHex bs

theorem bytesToHex_length (bs : List Nat) :
    (bytesToHex bs).length = 2 * bs.length := by
  induction bs with
  | nil => rfl
  | cons b bs ih => simp [bytesToHex, ih]; ring

theorem getD_mem_of_default_mem {α : Type} (l : List α) (n : Nat) (d : α)
    (hd : d ∈ l) : l.getD n d ∈ l := by
  rcases Nat.lt_or_ge n l.length with h | h
  · exact List.getD_eq_getElem l d h ▸ List.getElem_mem h
  · rw [List.getD_eq_default l d h]; exact hd

theorem hexDigit_mem (n : Nat) : hexDigit n ∈ hexChars :=
  getD_mem_of_default_mem _ _ _ (by decide)

theorem bytesToHex_mem (bs : List Nat) :
    ∀ c ∈ bytesToHex bs, c ∈ hexChars := by
  induction bs with
  | nil => intro c hc; cases hc
  | cons b bs ih =>
    intro c hc
    simp only [bytesToHex, List.mem_cons] at hc
    rcases hc with h | h | h
    · exact h ▸ hexDigit_mem _
    · exact h ▸ hexDigit_mem _
    · exact ih c h

/-! ## SHA-256 (FIPS 180-4), executable over `Nat` -/

/-- Reduction of a word to 32 bits. -/
def w32 (n : Nat) : Nat := n % 4294967296

/-- Right rotation of a 32-bit word by `n` positions. -/
def rotr32 (x n : Nat) : Nat := x / 2 ^ n + x % 2 ^ n * 2 ^ (32 - n)

/-- `Ch(x, y, z)`. -/
def shaCh (x y z : Nat) : Nat :=
  Nat.xor (Nat.land x y) (Nat.land (Nat.xor x 4294967295) z)

/-- `Maj(x, y, z)`. -/
def shaMaj (x y z : Nat) : Nat :=
  Nat.xor (Nat.xor (Nat.land x y) (Nat.land x z)) (Nat.land y z)

/-- `Σ₀`. -/
def bigSigma0 (x : Nat) : Nat :=
  Nat.xor (Nat.xor (rotr32 x 2) (rotr32 x 13)) (rotr32 x 22)

/-- `Σ₁`. -/
def bigSigma1 (x : Nat) : Nat :=
  Nat.xor (Nat.xor (rotr32 x 6) (rotr32 x 11)) (rotr32 x 25)

/-- `σ₀`. -/
def smallSigma0 (x : Nat) : Nat :=
  Nat.xor (Nat.xor (rotr32 x 7) (rotr32 x 18)) (x / 2 ^ 3)

/-- `σ₁`. -/
def smallSigma1 (x : Nat) : Nat :=
  Nat.xor (Nat.xor (rotr32 x 17) (rotr32 x 19)) (x / 2 ^ 10)

/-- The 64 SHA-256 round constants. -/
def shaK : List Nat :=
  [1116352408, 1899447441, 3049323471, 3921009573,
   961987163, 1508970993, 2453635748, 2870763221,
   3624381080, 310598401, 607225278, 1426881987,
   1925078388, 2162078206, 2614888103, 3248222580,
   3835390401, 4022224774, 264347078, 604807628,
   770255983, 1249150122, 1555081692, 1996064986,
   2554220882, 2821834349, 2952996808, 3210313671,
   3336571891, 3584528711, 113926993, 338241895,
   666307205, 773529912, 1294757372, 1396182291,
   1695183700, 1986661051, 2177026350, 2456956037,
   2730485921, 2820302411, 3259730800, 3345764771,
   3516065817, 3600352804, 4094571909, 275423344,
   430227734, 506948616, 659060556, 883997877,
   958139571, 1322822218, 1537002063, 1747873779,
   1955562222, 2024104815, 2227730452, 2361852424,
   2428436474, 2756734187, 3204031479, 3329325298]

/-- The eight-word working state of the compression function. -/
structure Hash8 where
  a : Nat
  b : Nat
  c : Nat
  d : Nat
  e : Nat
  f : Nat
  g : Nat
  h : Nat

/-- The SHA-256 initial hash value. -/
def shaIV : Hash8 :=
  ⟨1779033703, 3144134277, 1013904242, 2773480762,
   1359893119, 2600822924, 528734635, 1541459225⟩

/-- One compression round. -/
def shaRound (st : Hash8) (kt wt : Nat) : Hash8 :=
  let t1 := w32 (st.h + bigSigma1 st.e + shaCh st.e st.f st.g + kt + wt)
  let t2 := w32 (bigSigma0 st.a + shaMaj st.a st.b st.c)
  ⟨w32 (t1 + t2), st.a, st.b, st.c, w32 (st.d + t1), st.e, st.f, st.g⟩

/-- Run the rounds over paired constants and schedule words. -/
def shaRounds : List Nat → List Nat → Hash8 → Hash8
  | kt :: ks, wt :: ws, st => shaRounds ks ws (shaRound st kt wt)
  | _, _, st => st

/-- Message-schedule extension; `acc` holds the words produced so far in
reverse order, `n` counts the remaining of the 48 extension steps. -/
def extendSchedule : Nat → List Nat → List Nat
  | 0, acc => acc
  | n + 1, acc =>
    extendSchedule n
      (w32 (smallSigma1 (acc.getD 1 0) + acc.getD 6 0 +
        smallSigma0 (acc.getD 14 0) + acc.getD 15 0) :: acc)

/-- Big-endian 32-bit words from bytes. -/
def bytesToWords : List Nat → List Nat
  | b0 :: b1 :: b2 :: b3 :: rest =>
    (((b0 * 256 + b1) * 256 + b2) * 256 + b3) :: bytesToWords rest
  | _ => []

/-- The 64 schedule words of one 64-byte block. -/
def messageSchedule (block : List Nat) : List Nat :=
  (extendSchedule 48 (bytesToWords block).reverse).reverse

/-- Compress one 64-byte block into the state. -/
def compressBlock (st : Hash8) (block : List Nat) : Hash8 :=
  let r := shaRounds shaK (messageSchedule block) st
  ⟨w32 (st.a + r.a), w32 (st.b + r.b), w32 (st.c + r.c), w32 (st.d + r.d),
   w32 (st.e + r.e), w32 (st.f + r.f), w32 (st.g + r.g), w32 (st.h + r.h)⟩

/-- FIPS 180-4 padding: `0x80`, zeros, 64-bit big-endian bit length. -/
def padMessage (msg : List Nat) : List Nat :=
  msg ++ 128 :: List.replicate ((64 - (msg.length + 9) % 64) % 64) 0 ++
    beBytes 8 (8 * msg.length)

/-- Split into 64-byte blocks; fuel-based so the kernel evaluates it. -/
def toBlocksAux : Nat → List Nat → List (List Nat)
  | 0, _ => []
  | _, [] => []
  | fuel + 1, bs => bs.take 64 :: toBlocksAux fuel (bs.drop 64)

/-- The 64-byte blocks of a byte string. -/
def toBlocks (bs : List Nat) : List (List Nat) := toBlocksAux bs.length bs

/-- SHA-256 final state of a byte message. -/
def sha256State (msg : List Nat) : Hash8 :=
  (toBlocks (padMessage msg)).foldl compressBlock shaIV

/-- The 32 digest bytes. -/
def hash8Bytes (st : Hash8) : List Nat :=
  beBytes 4 st.a ++ beBytes 4 st.b ++ beBytes 4 st.c ++ beBytes 4 st.d ++
    beBytes 4 st.e ++ beBytes 4 st.f ++ beBytes 4 st.g ++ beBytes 4 st.h

theorem hash8Bytes_length (st : Hash8) : (hash8Bytes st).length = 32 := by
  simp [hash8Bytes, beBytes_length]

/-- `hashlib.sha256(s.encode()).hexdigest()`. -/
def sha256hex (s : String) : String :=
  String.mk (bytesToHex (hash8Bytes (sha256State (utf8Bytes s))))

theorem sha256hex_length (s : String) : (sha256hex s).length = 64 := by
  show (String.mk _).length = 64
  rw [String.length]
  simp [sha256hex, bytesToHex_length, hash8Bytes_length]

theorem sha256hex_mem_hexChars (s : String) :
    ∀ c ∈ (sha256hex s).data, c ∈ hexChars := by
  intro c hc
  exact bytesToHex_mem _ c hc

/-- FIPS 180-4 test vector: digest of the empty message. -/
theorem sha256hex_empty :
    sha256hex "" =
      "e3b0c44298fc1c149afbf4c8996fb92427ae41e4649b934ca495991b7852b855" := by
  decide

/-- FIPS 180-4 test vector: digest of `"abc"`. -/
theorem sha256hex_abc :
    sha256hex "abc" =
      "ba7816bf8f01cfea414140de5dae2223b00361a396177a9cb410ff61f20015ad" := by
  decide

/-- Padding-boundary vector (55 bytes, checked against `hashlib`). -/
theorem sha256hex_55 :
    sha256hex (String.mk (List.replicate 55 'a')) =
      "9f4390f8d30c2dd92ec9f095b65e2b9ae9b0a925a5258e241c9f1e910f734318" := by
  decide

/-- Padding-boundary vector (56 bytes forces an extra block). -/
theorem sha256hex_56 :
    sha256hex (String.mk (List.replicate 56 'a')) =
      "b35439a4ac6f0948b6d6f9e3c6af0f5f590ce20f1bde7090ef7970686ec6738a" := by
  decide

/-- Multi-block vector (200 bytes, checked against `hashlib`). -/
theorem sha256hex_200 :
    sha256hex (String.mk (List.replicate 200 'x')) =
      "aa20c23e3201834050679e1d88941b9a6fed0557c9a705cb2c315e2e63fd486d" := by
  decide

/-! ## Content identifier (`ast_chunker.py`, `CodeChunk`) -/

/-- The characters Python `str.strip()` removes: the Unicode white-space
class. -/
def pyWhitespace : List Char :=
  [' ', '\t', '\n', '\r', '\x0b', '\x0c',
   '\x1c', '\x1d', '\x1e', '\x1f', '\x85', '\xa0',
   ' ', ' ', ' ', ' ', ' ', ' ', ' ',
   ' ', ' ', ' ', ' ', ' ',
   ' ', ' ', ' ', ' ', '　']

/-- Python `line.strip()`: drop leading and trailing white-space. -/
def pyStrip (s : String) : String :=
  String.mk
    (((s.data.dropWhile pyWhitespace.contains).reverse.dropWhile
      pyWhitespace.contains).reverse)

/-- Python `code.split('\n')` over the character list: splitting on a
single newline, keeping empty pieces, never empty output. -/
def splitNl : List Char → List (List Char)
  | [] => [[]]
  | c :: rest =>
    if c = '\n' then [] :: splitNl rest
    else
      match splitNl rest with
      | [] => [[c]]
      | l :: ls => (c :: l) :: ls

/-- Python `code.split('\n')` on strings. -/
def pySplitLines (s : String) : List String := (splitNl s.data).map String.mk

/-- Python `'\n'.join(parts)`. -/
def joinNl : List String → String
  | [] => ""
  | [x] => x
  | x :: xs => x ++ "\n" ++ joinNl xs

/-- `CodeChunk.normalize_code`: strip every line, drop lines that become
empty, rejoin with a single newline. -/
def normalize_code (code : String) : String :=
  joinNl (((pySplitLines code).map pyStrip).filter (fun l => !(l == "")))

/-- `CodeChunk` (`ast_chunker.py`): a semantically meaningful chunk of
code from a source file. -/
structure CodeChunk where
  code_string : String
  type : String
  start_line : Nat
  end_line : Nat
  path : String
deriving DecidableEq

/-- `CodeChunk.doc_id`: `f"{path}__{sha256(normalized).hexdigest()}"`. -/
def CodeChunk.doc_id (c : CodeChunk) : String :=
  c.path ++ "__" ++ sha256hex (normalize_code c.code_string)

/-! ## Python `dict` as an insertion-ordered association list -/

/-- `d[k] = v` on a Python `dict`: overwrite in place if the key is
present, otherwise append at the end. -/
def dinsert {α : Type} : List (String × α) → String → α → List (String × α)
  | [], k, v => [(k, v)]
  | (k', v') :: rest, k, v =>
    if k' = k then (k, v) :: rest else (k', v') :: dinsert rest k v

/-- `d.keys()` in insertion order. -/
def dkeys {α : Type} (d : List (String × α)) : List String := d.map Prod.fst

/-- `d[k]` as an optional lookup (first, hence unique, occurrence). -/
def dget? {α : Type} (d : List (String × α)) (k : String) : Option α :=
  (d.find? (fun p => p.1 == k)).map Prod.snd

/-- `path_to_chunks[path].append(chunk)` preceded by
`path_to_chunks[path] = []` when the key is new. -/
def dappendChunk (d : List (String × List CodeChunk)) (k : String)
    (c : CodeChunk) : List (String × List CodeChunk) :=
  match dget? d k with
  | some l => dinsert d k (l ++ [c])
  | none => d ++ [(k, [c])]

/-- First-occurrence deduplication, the content of Python's
`list(set(xs))` up to the unspecified set iteration order. -/
def dedupKeysAux : Nat → List String → List String
  | 0, _ => []
  | _, [] => []
  | fuel + 1, x :: xs => x :: dedupKeysAux fuel (xs.filter (fun y => !(y == x)))

/-- `list(set(xs))`, modelled with first-occurrence order. -/
def dedupKeys (xs : List String) : List String := dedupKeysAux xs.length xs

/-! ## Merkle tree (`merkle_tree.py`) -/

/-- `MerkleNode`: a hash value and an owned, ordered child list. -/
inductive MerkleNode where
  | mk (hash_value : String) (children : List MerkleNode)

/-- The node's stored hash string. -/
def MerkleNode.hash_value : MerkleNode → String
  | .mk h _ => h

/-- The node's ordered children. -/
def MerkleNode.children : MerkleNode → List MerkleNode
  | .mk _ cs => cs

/-- `MerkleTree`: optional root plus the `chunk_nodes` dictionary mapping
`doc_id` to its leaf node. -/
structure MerkleTree where
  root : Option MerkleNode
  chunk_nodes : List (String × MerkleNode)

/-- `MerkleTree.__init__`: empty tree, `root = None`, no chunk nodes. -/
def MerkleTree.init : MerkleTree := ⟨none, []⟩

/-- `MerkleTree.hash_content`: SHA-256 hex digest of a string. -/
def MerkleTree.hash_content (content : String) : String := sha256hex content

/-- `MerkleTree.hash_children`: empty string for no children, else the
digest of the concatenated child hashes. -/
def MerkleTree.hash_children (children : List MerkleNode) : String :=
  match children with
  | [] => ""
  | _ =>
    MerkleTree.hash_content
      ((children.map MerkleNode.hash_value).foldl (· ++ ·) "")

/-- The loop body of `build_from_chunks` over one `(path, file_chunks)`
entry: create one leaf per chunk, record each in `chunk_nodes`, and append
the file node. -/
def buildStep (acc : List (String × MerkleNode) × List MerkleNode)
    (entry : String × List CodeChunk) :
    List (String × MerkleNode) × List MerkleNode :=
  let leaves := entry.2.map (fun c => MerkleNode.mk c.doc_id [])
  let cn := entry.2.foldl
    (fun cn c => dinsert cn c.doc_id (MerkleNode.mk c.doc_id [])) acc.1
  (cn, acc.2 ++ [MerkleNode.mk (MerkleTree.hash_children leaves) leaves])

/-- `MerkleTree.build_from_chunks`: group the chunks by path in first-seen
order, build leaves and file nodes, then set the root over all file
nodes.  The receiver's existing `chunk_nodes` dictionary is extended, never
cleared, exactly as in the source. -/
def MerkleTree.build_from_chunks (t : MerkleTree) (chunks : List CodeChunk) :
    MerkleTree :=
  let path_to_chunks := chunks.foldl (fun d c => dappendChunk d c.path c) []
  let built := path_to_chunks.foldl buildStep (t.chunk_nodes, [])
  { root := some (MerkleNode.mk (MerkleTree.hash_children built.2) built.2),
    chunk_nodes := built.1 }

/-- The `{child.hash_value: child for child in root.children}` dictionary
comprehension. -/
def fileNodeDict (children : List MerkleNode) : List (String × MerkleNode) :=
  children.foldl (fun d ch => dinsert d ch.hash_value ch) []

/-- The leaf hash values of one file node, in child order. -/
def leafHashes (n : MerkleNode) : List String :=
  n.children.map MerkleNode.hash_value

/-- The first `for file_hash in changed_file_hashes` contribution of one
side: every leaf of a file node whose key is absent from the other
dictionary, in dictionary order. -/
def oneSidedPart (d1 d2 : List (String × MerkleNode)) : List String :=
  (d1.filter (fun p => !((dkeys d2).contains p.1))).flatMap
    (fun p => leafHashes p.2)

/-- The `for file_hash in common_file_hashes` loop: for keys present in
both dictionaries, compare the two file nodes' hashes and, when they
differ, add the symmetric difference of the chunk-key sets.  (The two
dictionaries are keyed by the very hash compared, so the branch never
fires; it is embedded faithfully and proved dead below.) -/
def commonPartFn (d1 d2 : List (String × MerkleNode)) : List String :=
  (d1.filter (fun p => (dkeys d2).contains p.1)).flatMap (fun p =>
    let other_file := (dget? d2 p.1).getD (MerkleNode.mk "" [])
    if p.2.hash_value ≠ other_file.hash_value then
      let self_chunks := fileNodeDict p.2.children
      let other_chunks := fileNodeDict other_file.children
      (dkeys self_chunks).filter
        (fun h => !((dkeys other_chunks).contains h)) ++
      (dkeys other_chunks).filter
        (fun h => !((dkeys self_chunks).contains h))
    else [])

/-- `MerkleTree.compare`: the changed-chunk list.  The two `for` loops
over the hash-ordered Python sets are modelled in dictionary order
(self-only entries first, then other-only, then the common-key loop);
the set membership content and the per-identifier multiplicities are
exactly those of the source. -/
def MerkleTree.compare (t other : MerkleTree) : List String :=
  match t.root, other.root with
  | none, _ => dedupKeys (dkeys t.chunk_nodes ++ dkeys other.chunk_nodes)
  | some _, none => dedupKeys (dkeys t.chunk_nodes ++ dkeys other.chunk_nodes)
  | some r1, some r2 =>
    if r1.hash_value = r2.hash_value then []
    else
      let self_file_nodes := fileNodeDict r1.children
      let other_file_nodes := fileNodeDict r2.children
      oneSidedPart self_file_nodes other_file_nodes ++
        oneSidedPart other_file_nodes self_file_nodes ++
        commonPartFn self_file_nodes other_file_nodes

/-! ## AST chunker (`ast_chunker.py`, `ASTChunker`)

The tree-sitter parser is an external library; the repository's chunker
consumes the parse tree it returns.  A parse-tree node is embedded with
exactly the fields the chunker reads: the kind label, the byte span, and
the 0-based `(row, column)` start and end points (§4.1 Parser Adapter
contract).  `chunk_code` therefore takes the root node as an argument in
place of the `self.parser.parse(...)` call. -/

/-- A tree-sitter parse-tree node as the chunker sees it. -/
inductive TSNode where
  | mk (type : String) (start_byte end_byte : Nat)
      (start_point end_point : Nat × Nat) (children : List TSNode)

/-- The node's kind label. -/
def TSNode.type : TSNode → String
  | .mk ty _ _ _ _ _ => ty

/-- Start byte offset. -/
def TSNode.start_byte : TSNode → Nat
  | .mk _ sb _ _ _ _ => sb

/-- End byte offset (exclusive). -/
def TSNode.end_byte : TSNode → Nat
  | .mk _ _ eb _ _ _ => eb

/-- 0-based `(row, column)` start point. -/
def TSNode.start_point : TSNode → Nat × Nat
  | .mk _ _ _ sp _ _ => sp

/-- 0-based `(row, column)` end point. -/
def TSNode.end_point : TSNode → Nat × Nat
  | .mk _ _ _ _ ep _ => ep

/-- The node's ordered children. -/
def TSNode.children : TSNode → List TSNode
  | .mk _ _ _ _ _ cs => cs

/-- UTF-8 decoding of a byte slice, as `bytes.decode('utf8')`; on an
invalid sequence the source would raise, here the replacement character
is produced instead (never reached on the slices a parser emits).  The
fuel argument (any bound on the list length) keeps the recursion
structural. -/
def utf8DecodeAux : Nat → List Nat → List Char
  | 0, _ => []
  | _, [] => []
  | fuel + 1, b :: rest =>
    if b < 128 then Char.ofNat b :: utf8DecodeAux fuel rest
    else if 194 ≤ b ∧ b < 224 then
      match rest with
      | b2 :: rest2 =>
        if 128 ≤ b2 ∧ b2 < 192 then
          Char.ofNat ((b - 192) * 64 + (b2 - 128)) :: utf8DecodeAux fuel rest2
        else '�' :: utf8DecodeAux fuel rest
      | [] => ['�']
    else if 224 ≤ b ∧ b < 240 then
      match rest with
      | b2 :: b3 :: rest3 =>
        if (128 ≤ b2 ∧ b2 < 192) ∧ (128 ≤ b3 ∧ b3 < 192) then
          Char.ofNat ((b - 224) * 4096 + (b2 - 128) * 64 + (b3 - 128)) ::
            utf8DecodeAux fuel rest3
        else '�' :: utf8DecodeAux fuel rest
      | _ => '�' :: utf8DecodeAux fuel rest
    else if 240 ≤ b ∧ b < 245 then
      match rest with
      | b2 :: b3 :: b4 :: rest4 =>
        if (128 ≤ b2 ∧ b2 < 192) ∧ (128 ≤ b3 ∧ b3 < 192) ∧
            (128 ≤ b4 ∧ b4 < 192) then
          Char.ofNat ((b - 240) * 262144 + (b2 - 128) * 4096 +
            (b3 - 128) * 64 + (b4 - 128)) :: utf8DecodeAux fuel rest4
        else '�' :: utf8DecodeAux fuel rest
      | _ => '�' :: utf8DecodeAux fuel rest
    else '�' :: utf8DecodeAux fuel rest

/-- `bytes.decode('utf8')` on a byte list. -/
def utf8Decode (bs : List Nat) : List Char := utf8DecodeAux bs.length bs

/-- `ASTChunker._extract_chunk`: slice the UTF-8 bytes of the source by
the node's byte span, decode, and attach 1-based inclusive line numbers
derived from the 0-based rows. -/
def extract_chunk (node : TSNode) (code : String) (chunk_type : String)
    (file_path : String) : CodeChunk :=
  let code_bytes := utf8Bytes code
  let chunk_bytes :=
    (code_bytes.drop node.start_byte).take (node.end_byte - node.start_byte)
  { code_string := String.mk (utf8Decode chunk_bytes)
    type := chunk_type
    start_line := node.start_point.1 + 1
    end_line := node.end_point.1 + 1
    path := file_path }

/-- `ASTChunker._process_class`: the class chunk itself, then one method
chunk per `function_definition` directly inside the first `block` child. -/
def process_class (node : TSNode) (code : String) (file_path : String) :
    List CodeChunk :=
  let body_node := node.children.find? (fun ch => ch.type == "block")
  extract_chunk node code "class" file_path ::
    match body_node with
    | some b =>
      (b.children.filter (fun ch => ch.type == "function_definition")).map
        (fun ch => extract_chunk ch code "method" file_path)
    | none => []

/-- `ASTChunker.chunk_code` given the parse tree's root node: walk the
top-level children, expanding classes and taking top-level functions,
ignoring every other node kind. -/
def chunk_code (root_node : TSNode) (code : String) (file_path : String) :
    List CodeChunk :=
  root_node.children.flatMap (fun child =>
    if child.type = "class_definition" then process_class child code file_path
    else if child.type = "function_definition" then
      [extract_chunk child code "function" file_path]
    else [])

/-! ## State-threaded `compare` for the purity claim

Each Python statement of `MerkleTree.compare` either reads the two trees
or mutates the local `changed_chunks` list; no statement assigns to an
attribute of `self` or `other`.  The state-threaded embedding makes this
visible: it carries both objects through every branch and returns them
alongside the result. -/

/-- `MerkleTree.compare` with the two object states threaded through and
returned: `(returned list, self after the call, other after the call)`. -/
def MerkleTree.compareS (t other : MerkleTree) :
    List String × MerkleTree × MerkleTree :=
  match t.root, other.root with
  | none, _ => (dedupKeys (dkeys t.chunk_nodes ++ dkeys other.chunk_nodes), t, other)
  | some _, none => (dedupKeys (dkeys t.chunk_nodes ++ dkeys other.chunk_nodes), t, other)
  | some r1, some r2 =>
    if r1.hash_value = r2.hash_value then ([], t, other)
    else
      let self_file_nodes := fileNodeDict r1.children
      let other_file_nodes := fileNodeDict r2.children
      (oneSidedPart self_file_nodes other_file_nodes ++
        oneSidedPart other_file_nodes self_file_nodes ++
        commonPartFn self_file_nodes other_file_nodes, t, other)

/-! ## Dictionary lemmas -/

theorem mem_dinsert_cases {α : Type} (d : List (String × α)) (k : String)
    (v : α) (p : String × α) (h : p ∈ dinsert d k v) :
    p = (k, v) ∨ p ∈ d := by
  induction d with
  | nil => simp [dinsert] at h; exact Or.inl h
  | cons q rest ih =>
    obtain ⟨k', v'⟩ := q
    by_cases hk : k' = k
    · simp only [dinsert, if_pos hk, List.mem_cons] at h
      rcases h with h | h
      · exact Or.inl h
      · exact Or.inr (List.mem_cons_of_mem _ h)
    · simp only [dinsert, if_neg hk, List.mem_cons] at h
      rcases h with h | h
      · exact Or.inr (h ▸ List.mem_cons_self _ _)
      · rcases ih h with h' | h'
        · exact Or.inl h'
        · exact Or.inr (List.mem_cons_of_mem _ h')

theorem mem_dkeys_dinsert {α : Type} (d : List (String × α)) (k : String)
    (v : α) (x : String) :
    x ∈ dkeys (dinsert d k v) ↔ x = k ∨ x ∈ dkeys d := by
  induction d with
  | nil => simp [dinsert, dkeys]
  | cons q rest ih =>
    obtain ⟨k', v'⟩ := q
    simp only [dkeys, List.map_cons, List.mem_cons] at ih ⊢
    by_cases hk : k' = k
    · rw [show dinsert ((k', v') :: rest) k v = (k, v) :: rest from by
        simp [dinsert, hk]]
      simp only [dkeys, List.map_cons, List.mem_cons]
      rw [hk]
      tauto
    · rw [show dinsert ((k', v') :: rest) k v = (k', v') :: dinsert rest k v
        from by simp [dinsert, hk]]
      simp only [dkeys, List.map_cons, List.mem_cons]
      rw [ih]
      tauto

theorem dinsert_eq_append {α : Type} (d : List (String × α)) (k : String)
    (v : α) (h : k ∉ dkeys d) : dinsert d k v = d ++ [(k, v)] := by
  induction d with
  | nil => rfl
  | cons q rest ih =>
    obtain ⟨k', v'⟩ := q
    have h' : ¬ k' = k ∧ k ∉ dkeys rest := by
      simp only [dkeys, List.map_cons, List.mem_cons] at h
      push_neg at h
      exact ⟨fun e => h.1 e.symm, by simpa [dkeys] using h.2⟩
    rw [show dinsert ((k', v') :: rest) k v = (k', v') :: dinsert rest k v
      from by simp [dinsert, h'.1], List.cons_append]
    exact congrArg (List.cons (k', v')) (ih h'.2)

theorem dget?_isSome_of_mem_keys {α : Type} (d : List (String × α))
    (k : String) (h : k ∈ dkeys d) : ∃ v, dget? d k = some v := by
  simp only [dkeys, List.mem_map] at h
  obtain ⟨p, hp, hpk⟩ := h
  have : (d.find? (fun q => q.1 == k)).isSome := by
    rw [List.find?_isSome]
    exact ⟨p, hp, by simp [hpk]⟩
  obtain ⟨q, hq⟩ := Option.isSome_iff_exists.mp this
  exact ⟨q.2, by simp [dget?, hq]⟩

theorem dget?_mem {α : Type} (d : List (String × α)) (k : String) (v : α)
    (h : dget? d k = some v) : (k, v) ∈ d := by
  simp only [dget?, Option.map_eq_some'] at h
  obtain ⟨p, hp, hpv⟩ := h
  have h1 : p.1 = k := by simpa using List.find?_some hp
  have h2 : p ∈ d := List.mem_of_find?_eq_some hp
  have : p = (k, v) := by
    obtain ⟨a, b⟩ := p
    simp only at h1 hpv
    rw [h1, hpv]
  exact this ▸ h2

theorem contains_eq_of_mem_iff {l1 l2 : List String}
    (h : ∀ x, x ∈ l1 ↔ x ∈ l2) (x : String) :
    l1.contains x = l2.contains x := by
  have h1 : l1.contains x = true ↔ x ∈ l1 := List.elem_iff
  have h2 : l2.contains x = true ↔ x ∈ l2 := List.elem_iff
  by_cases hx : x ∈ l1
  · rw [h1.mpr hx, h2.mpr ((h x).mp hx)]
  · have e1 : l1.contains x = false :=
      Bool.eq_false_iff.mpr (fun hc => hx (h1.mp hc))
    have e2 : l2.contains x = false :=
      Bool.eq_false_iff.mpr (fun hc => hx ((h x).mpr (h2.mp hc)))
    rw [e1, e2]

/-! ## `fileNodeDict` lemmas -/

theorem foldl_dinsert_hash_inv (cs : List MerkleNode)
    (acc : List (String × MerkleNode))
    (hacc : ∀ p ∈ acc, p.2.hash_value = p.1) :
    ∀ p ∈ cs.foldl (fun d ch => dinsert d ch.hash_value ch) acc,
      p.2.hash_value = p.1 := by
  induction cs generalizing acc with
  | nil => simpa using hacc
  | cons c cs ih =>
    intro p hp
    refine ih (dinsert acc c.hash_value c) ?_ p (by simpa using hp)
    intro q hq
    rcases mem_dinsert_cases _ _ _ _ hq with h | h
    · rw [h]
    · exact hacc q h

theorem fileNodeDict_snd_hash (cs : List MerkleNode) :
    ∀ p ∈ fileNodeDict cs, p.2.hash_value = p.1 :=
  foldl_dinsert_hash_inv cs [] (by intro p hp; cases hp)

theorem mem_dkeys_foldl_dinsert (cs : List MerkleNode)
    (acc : List (String × MerkleNode)) (x : String) :
    x ∈ dkeys (cs.foldl (fun d ch => dinsert d ch.hash_value ch) acc) ↔
      x ∈ dkeys acc ∨ x ∈ cs.map MerkleNode.hash_value := by
  induction cs generalizing acc with
  | nil => simp
  | cons c cs ih =>
    simp only [List.foldl_cons, List.map_cons, List.mem_cons]
    rw [ih, mem_dkeys_dinsert]
    tauto

theorem mem_dkeys_fileNodeDict (cs : List MerkleNode) (x : String) :
    x ∈ dkeys (fileNodeDict cs) ↔ x ∈ cs.map MerkleNode.hash_value := by
  rw [fileNodeDict, mem_dkeys_foldl_dinsert]
  simp [dkeys]

theorem foldl_dinsert_eq_append (cs : List MerkleNode)
    (acc : List (String × MerkleNode))
    (hnd : (cs.map MerkleNode.hash_value).Nodup)
    (hdisj : ∀ c ∈ cs, c.hash_value ∉ dkeys acc) :
    cs.foldl (fun d ch => dinsert d ch.hash_value ch) acc =
      acc ++ cs.map (fun c => (c.hash_value, c)) := by
  induction cs generalizing acc with
  | nil => simp
  | cons c cs ih =>
    simp only [List.map_cons, List.nodup_cons] at hnd
    rw [List.foldl_cons,
      dinsert_eq_append acc c.hash_value c (hdisj c (List.mem_cons_self _ _)),
      ih (acc ++ [(c.hash_value, c)]) hnd.2]
    · simp
    · intro c' hc'
      simp only [dkeys, List.map_append, List.mem_append, List.map_cons]
      push_neg
      refine ⟨hdisj c' (List.mem_cons_of_mem _ hc'), ?_⟩
      intro hmem
      simp only [List.map_nil, List.mem_singleton] at hmem
      exact hnd.1 (hmem ▸ List.mem_map_of_mem MerkleNode.hash_value hc')

theorem fileNodeDict_eq_of_nodup (cs : List MerkleNode)
    (hnd : (cs.map MerkleNode.hash_value).Nodup) :
    fileNodeDict cs = cs.map (fun c => (c.hash_value, c)) := by
  rw [fileNodeDict, foldl_dinsert_eq_append cs [] hnd (by simp [dkeys])]
  simp

/-! ## Characterisation of `compare` when both roots are present -/

/-- The leaves under the file nodes of one side whose digest does not
occur among the other side's file-node digests, in child order. -/
def changedOneSided (mine others : List MerkleNode) : List String :=
  (mine.filter (fun c =>
    !((others.map MerkleNode.hash_value).contains c.hash_value))).flatMap
    leafHashes

/-- The common-key loop of `compare` contributes nothing: both
dictionaries are keyed by the very hash value the loop compares. -/
theorem commonPartFn_eq_nil (d1 d2 : List (String × MerkleNode))
    (h1 : ∀ p ∈ d1, p.2.hash_value = p.1)
    (h2 : ∀ p ∈ d2, p.2.hash_value = p.1) :
    commonPartFn d1 d2 = [] := by
  rw [commonPartFn, List.flatMap_eq_nil_iff]
  intro p hp
  have hpd1 : p ∈ d1 := List.mem_of_mem_filter hp
  have hcont : (dkeys d2).contains p.1 = true := by
    have := List.of_mem_filter hp
    simpa using this
  have hkey : p.1 ∈ dkeys d2 := List.elem_iff.mp hcont
  obtain ⟨v, hv⟩ := dget?_isSome_of_mem_keys d2 p.1 hkey
  have hvmem : (p.1, v) ∈ d2 := dget?_mem d2 p.1 v hv
  have hvh : v.hash_value = p.1 := h2 (p.1, v) hvmem
  have hph : p.2.hash_value = p.1 := h1 p hpd1
  simp only [hv, Option.getD_some]
  rw [if_neg]
  simp [hvh, hph]

/-- With duplicate-free file digests, the one-sided contribution is the
leaf list of the children filtered against the other side's digests. -/
theorem oneSidedPart_eq (cs1 cs2 : List MerkleNode)
    (hnd1 : (cs1.map MerkleNode.hash_value).Nodup) :
    oneSidedPart (fileNodeDict cs1) (fileNodeDict cs2) =
      changedOneSided cs1 cs2 := by
  rw [oneSidedPart, fileNodeDict_eq_of_nodup cs1 hnd1, List.filter_map,
    List.flatMap_map, changedOneSided]
  congr 1
  apply List.filter_congr
  intro c _
  simp only [Function.comp_apply]
  congr 1
  apply contains_eq_of_mem_iff
  intro x
  rw [mem_dkeys_fileNodeDict]

/-- `compare` on two rooted trees with different root digests is exactly
the concatenation of the two one-sided leaf lists. -/
theorem compare_changed_eq (t other : MerkleTree) (r1 r2 : MerkleNode)
    (h1 : t.root = some r1) (h2 : other.root = some r2)
    (hne : r1.hash_value ≠ r2.hash_value)
    (hnd1 : (r1.children.map MerkleNode.hash_value).Nodup)
    (hnd2 : (r2.children.map MerkleNode.hash_value).Nodup) :
    t.compare other =
      changedOneSided r1.children r2.children ++
        changedOneSided r2.children r1.children := by
  rw [MerkleTree.compare, h1, h2]
  simp only [if_neg hne]
  rw [commonPartFn_eq_nil _ _ (fileNodeDict_snd_hash r1.children)
    (fileNodeDict_snd_hash r2.children), List.append_nil,
    oneSidedPart_eq r1.children r2.children hnd1,
    oneSidedPart_eq r2.children r1.children hnd2]

/-! ## Concrete scenario inputs

The single-function-change scenario of the specification: a file with
functions `a` and `b`, where `b`'s body changes from `return 2` to
`return 3` while `a` is untouched. -/

/-- Chunk of the untouched function `a`. -/
def demoChunkA : CodeChunk :=
  ⟨"def a():\n    return 1", "function", 1, 2, "example.py"⟩

/-- Chunk of function `b` before the change. -/
def demoChunkB : CodeChunk :=
  ⟨"def b():\n    return 2", "function", 4, 5, "example.py"⟩

/-- Chunk of function `b` after the change. -/
def demoChunkB3 : CodeChunk :=
  ⟨"def b():\n    return 3", "function", 4, 5, "example.py"⟩

/-- The "before" snapshot tree. -/
def demoTreeBefore : MerkleTree :=
  MerkleTree.init.build_from_chunks [demoChunkA, demoChunkB]

/-- The "after" snapshot tree. -/
def demoTreeAfter : MerkleTree :=
  MerkleTree.init.build_from_chunks [demoChunkA, demoChunkB3]

/-- The root node of the "before" tree. -/
def demoRootBefore : MerkleNode :=
  (demoTreeBefore.root).getD (MerkleNode.mk "" [])

/-- The root node of the "after" tree. -/
def demoRootAfter : MerkleNode :=
  (demoTreeAfter.root).getD (MerkleNode.mk "" [])

/-- C1 (counterexample): in the single-chunk-change scenario the changed
list returned by `compare` is NOT duplicate-free — the untouched chunk
`a`'s identifier appears exactly twice, once from the before-side file
node and once from the after-side file node. -/
theorem compare_single_chunk_change_not_nodup :
    ¬ (demoTreeBefore.compare demoTreeAfter).Nodup ∧
      (demoTreeBefore.compare demoTreeAfter).count demoChunkA.doc_id = 2 := by
  decide

/-- C1 (amended): `compare` on two rooted trees with distinct root
digests and duplicate-free file digests returns the concatenation of the
leaves under before-only file nodes and the leaves under after-only file
nodes; an identifier occurring on both sides is therefore reported once
per side, so the result is a list that can contain duplicates, not a
set. -/
theorem compare_changed_list_eq (t other : MerkleTree) (r1 r2 : MerkleNode)
    (h1 : t.root = some r1) (h2 : other.root = some r2)
    (hne : r1.hash_value ≠ r2.hash_value)
    (hnd1 : (r1.children.map MerkleNode.hash_value).Nodup)
    (hnd2 : (r2.children.map MerkleNode.hash_value).Nodup) :
    t.compare other =
      changedOneSided r1.children r2.children ++
        changedOneSided r2.children r1.children :=
  compare_changed_eq t other r1 r2 h1 h2 hne hnd1 hnd2

/-- Witness for the amended C1 theorem at the concrete scenario trees. -/
theorem compare_changed_list_eq_witness :
    (demoTreeBefore.root = some demoRootBefore ∧
      demoTreeAfter.root = some demoRootAfter ∧
      demoRootBefore.hash_value ≠ demoRootAfter.hash_value ∧
      (demoRootBefore.children.map MerkleNode.hash_value).Nodup ∧
      (demoRootAfter.children.map MerkleNode.hash_value).Nodup) ∧
    demoTreeBefore.compare demoTreeAfter =
      changedOneSided demoRootBefore.children demoRootAfter.children ++
        changedOneSided demoRootAfter.children demoRootBefore.children := by
  have hne : demoRootBefore.hash_value ≠ demoRootAfter.hash_value := by decide
  have hnd1 : (demoRootBefore.children.map MerkleNode.hash_value).Nodup := by
    decide
  have hnd2 : (demoRootAfter.children.map MerkleNode.hash_value).Nodup := by
    decide
  exact ⟨⟨rfl, rfl, hne, hnd1, hnd2⟩,
    compare_changed_list_eq demoTreeBefore demoTreeAfter demoRootBefore
      demoRootAfter rfl rfl hne hnd1 hnd2⟩

/-- C3 (counterexample): building from the empty chunk list does NOT
leave the root absent — the root is set to a node carrying the
empty-string digest and no children. -/
theorem build_empty_root_some :
    (MerkleTree.init.build_from_chunks []).root ≠ none ∧
      (MerkleTree.init.build_from_chunks []).root =
        some (MerkleNode.mk "" []) := by
  refine ⟨?_, rfl⟩
  intro h
  rw [show (MerkleTree.init.build_from_chunks []).root =
    some (MerkleNode.mk "" []) from rfl] at h
  exact Option.noConfusion h

/-- C3 (amended): `build_from_chunks` always installs a root; on the
empty chunk list the root is the childless node with the empty-string
digest (a rootless tree arises only from `__init__` before any build). -/
theorem build_root_always_some (t : MerkleTree) (chunks : List CodeChunk) :
    ((t.build_from_chunks chunks).root).isSome = true ∧
      (MerkleTree.init.build_from_chunks []).root =
        some (MerkleNode.mk "" []) :=
  ⟨rfl, rfl⟩

/-- C4: a chunk's identifier is its path, the fixed separator `"__"`, and
the 64-character lowercase-hexadecimal SHA-256 digest of the normalized
text, where normalization strips every line, drops the lines that become
empty, and rejoins with single newlines. -/
theorem doc_id_spec (c : CodeChunk) :
    c.doc_id = c.path ++ "__" ++ sha256hex (normalize_code c.code_string) ∧
      (sha256hex (normalize_code c.code_string)).length = 64 ∧
      ((sha256hex (normalize_code c.code_string)).data.all
        (fun ch => hexChars.contains ch)) = true ∧
      normalize_code c.code_string =
        joinNl (((pySplitLines c.code_string).map pyStrip).filter
          (fun l => !(l == ""))) := by
  refine ⟨rfl, sha256hex_length _, ?_, rfl⟩
  rw [List.all_eq_true]
  intro ch hch
  exact List.elem_iff.mpr (sha256hex_mem_hexChars _ ch hch)

/-- C5: two texts whose lines strip to the same sequence of non-empty
strings receive the same identifier under the same path. -/
theorem doc_id_normalization_insensitive (c1 c2 : CodeChunk)
    (hpath : c1.path = c2.path)
    (hlines : ((pySplitLines c1.code_string).map pyStrip).filter
        (fun l => !(l == "")) =
      ((pySplitLines c2.code_string).map pyStrip).filter
        (fun l => !(l == ""))) :
    c1.doc_id = c2.doc_id := by
  unfold CodeChunk.doc_id normalize_code
  rw [hpath, hlines]

/-- Whitespace-variant chunk: trailing blanks and a blank line. -/
def wsChunk1 : CodeChunk := ⟨"x = 1 \n\n   y = 2", "function", 1, 3, "w.py"⟩

/-- The same logical lines without the whitespace noise. -/
def wsChunk2 : CodeChunk := ⟨"x = 1\ny = 2", "function", 1, 2, "w.py"⟩

/-- Witness for C5 at a concrete whitespace-only variation. -/
theorem doc_id_normalization_insensitive_witness :
    (wsChunk1.path = wsChunk2.path ∧
      ((pySplitLines wsChunk1.code_string).map pyStrip).filter
          (fun l => !(l == "")) =
        ((pySplitLines wsChunk2.code_string).map pyStrip).filter
          (fun l => !(l == ""))) ∧
    wsChunk1.doc_id = wsChunk2.doc_id :=
  ⟨⟨rfl, by decide⟩,
    doc_id_normalization_insensitive wsChunk1 wsChunk2 rfl (by decide)⟩

/-- C6: identical text under two different paths yields two different
identifiers — the digest suffix always has length 64, so equal
identifiers force equal paths.  Instantiated over arbitrary texts, this
also gives that the identifier sets of the same content under two paths
are disjoint, the full-delete-plus-full-add rename behaviour. -/
theorem doc_id_path_sensitive (c1 c2 : CodeChunk)
    (h : c1.path ≠ c2.path) : c1.doc_id ≠ c2.doc_id := by
  intro heq
  apply h
  have hdata := congrArg String.data heq
  rw [CodeChunk.doc_id, CodeChunk.doc_id, String.data_append,
    String.data_append, String.data_append, String.data_append] at hdata
  have hlen : (sha256hex (normalize_code c1.code_string)).data.length =
      (sha256hex (normalize_code c2.code_string)).data.length := by
    rw [show ∀ s : String, s.data.length = s.length from fun _ => rfl,
      show ∀ s : String, s.data.length = s.length from fun _ => rfl,
      sha256hex_length, sha256hex_length]
  obtain ⟨hpre, _⟩ := List.append_inj' hdata hlen
  obtain ⟨hpath, _⟩ := List.append_inj' hpre rfl
  exact String.ext hpath

/-- The same function body as it would appear under the old path. -/
def renameChunk1 : CodeChunk :=
  ⟨"def f():\n    return 1", "function", 1, 2, "old.py"⟩

/-- The identical body under the new path. -/
def renameChunk2 : CodeChunk :=
  ⟨"def f():\n    return 1", "function", 1, 2, "new.py"⟩

/-- Witness for C6 at a concrete rename. -/
theorem doc_id_path_sensitive_witness :
    renameChunk1.path ≠ renameChunk2.path ∧
      renameChunk1.doc_id ≠ renameChunk2.doc_id :=
  ⟨by decide, doc_id_path_sensitive renameChunk1 renameChunk2 (by decide)⟩

/-- C2: for rooted trees, with root-digest equality implying equal
file-digest lists (no hash collision) and duplicate-free file digests on
each side, an identifier is in the `compare` result exactly when it is a
leaf of a file node whose digest occurs in only one of the two trees;
file digests present in both trees contribute nothing. -/
theorem compare_mem_iff_symmdiff (t other : MerkleTree)
    (r1 r2 : MerkleNode) (id : String)
    (h1 : t.root = some r1) (h2 : other.root = some r2)
    (hcoll : r1.hash_value = r2.hash_value →
      r1.children.map MerkleNode.hash_value =
        r2.children.map MerkleNode.hash_value)
    (hnd1 : (r1.children.map MerkleNode.hash_value).Nodup)
    (hnd2 : (r2.children.map MerkleNode.hash_value).Nodup) :
    id ∈ t.compare other ↔
      (∃ c ∈ r1.children,
        c.hash_value ∉ r2.children.map MerkleNode.hash_value ∧
          id ∈ leafHashes c) ∨
      (∃ c ∈ r2.children,
        c.hash_value ∉ r1.children.map MerkleNode.hash_value ∧
          id ∈ leafHashes c) := by
  by_cases heq : r1.hash_value = r2.hash_value
  · have hnil : t.compare other = [] := by
      rw [MerkleTree.compare, h1, h2]
      simp [heq]
    rw [hnil]
    simp only [List.not_mem_nil, false_iff]
    rintro (⟨c, hc, hnot, _⟩ | ⟨c, hc, hnot, _⟩)
    · exact hnot ((hcoll heq) ▸ List.mem_map_of_mem MerkleNode.hash_value hc)
    · exact hnot ((hcoll heq) ▸ List.mem_map_of_mem MerkleNode.hash_value hc)
  · rw [compare_changed_eq t other r1 r2 h1 h2 heq hnd1 hnd2]
    simp only [changedOneSided, List.mem_append, List.mem_flatMap,
      List.mem_filter, Bool.not_eq_eq_eq_not, Bool.not_true]
    constructor
    · rintro (⟨c, ⟨hc, hcont⟩, hid⟩ | ⟨c, ⟨hc, hcont⟩, hid⟩)
      · refine Or.inl ⟨c, hc, fun hmem => ?_, hid⟩
        simp at hcont
        obtain ⟨x, hx, hxe⟩ := List.mem_map.mp hmem
        exact hcont x hx hxe
      · refine Or.inr ⟨c, hc, fun hmem => ?_, hid⟩
        simp at hcont
        obtain ⟨x, hx, hxe⟩ := List.mem_map.mp hmem
        exact hcont x hx hxe
    · rintro (⟨c, hc, hnot, hid⟩ | ⟨c, hc, hnot, hid⟩)
      · refine Or.inl ⟨c, ⟨hc, ?_⟩, hid⟩
        rw [Bool.eq_false_iff]
        exact fun hcont => hnot (List.elem_iff.mp hcont)
      · refine Or.inr ⟨c, ⟨hc, ?_⟩, hid⟩
        rw [Bool.eq_false_iff]
        exact fun hcont => hnot (List.elem_iff.mp hcont)

/-- Witness for C2 at the concrete scenario trees and the untouched
chunk's identifier. -/
theorem compare_mem_iff_symmdiff_witness :
    (demoTreeBefore.root = some demoRootBefore ∧
      demoTreeAfter.root = some demoRootAfter ∧
      (demoRootBefore.hash_value = demoRootAfter.hash_value →
        demoRootBefore.children.map MerkleNode.hash_value =
          demoRootAfter.children.map MerkleNode.hash_value) ∧
      (demoRootBefore.children.map MerkleNode.hash_value).Nodup ∧
      (demoRootAfter.children.map MerkleNode.hash_value).Nodup) ∧
    (demoChunkA.doc_id ∈ demoTreeBefore.compare demoTreeAfter ↔
      (∃ c ∈ demoRootBefore.children,
        c.hash_value ∉ demoRootAfter.children.map MerkleNode.hash_value ∧
          demoChunkA.doc_id ∈ leafHashes c) ∨
      (∃ c ∈ demoRootAfter.children,
        c.hash_value ∉ demoRootBefore.children.map MerkleNode.hash_value ∧
          demoChunkA.doc_id ∈ leafHashes c)) := by
  have hcoll : demoRootBefore.hash_value = demoRootAfter.hash_value →
      demoRootBefore.children.map MerkleNode.hash_value =
        demoRootAfter.children.map MerkleNode.hash_value := by decide
  have hnd1 : (demoRootBefore.children.map MerkleNode.hash_value).Nodup := by
    decide
  have hnd2 : (demoRootAfter.children.map MerkleNode.hash_value).Nodup := by
    decide
  exact ⟨⟨rfl, rfl, hcoll, hnd1, hnd2⟩,
    compare_mem_iff_symmdiff demoTreeBefore demoTreeAfter demoRootBefore
      demoRootAfter demoChunkA.doc_id rfl rfl hcoll hnd1 hnd2⟩

/-- Every built tree has a root node. -/
theorem build_root_isSome (t : MerkleTree) (chunks : List CodeChunk) :
    ∃ r, (t.build_from_chunks chunks).root = some r :=
  ⟨_, rfl⟩

/-- C8: diffing two trees freshly built from the same chunk list returns
the empty list — the root digests coincide, so `compare` takes the
early-equality exit. -/
theorem compare_build_same_chunks_nil (chunks : List CodeChunk) :
    (MerkleTree.init.build_from_chunks chunks).compare
      (MerkleTree.init.build_from_chunks chunks) = [] := by
  obtain ⟨r, hr⟩ := build_root_isSome MerkleTree.init chunks
  rw [MerkleTree.compare, hr]
  simp

/-- `compareS` runs the method body and returns both object states
untouched alongside the same list `compare` computes. -/
theorem compareS_eq (t other : MerkleTree) :
    t.compareS other = (t.compare other, t, other) := by
  cases ht : t.root with
  | none => simp [MerkleTree.compareS, MerkleTree.compare, ht]
  | some r1 =>
    cases ho : other.root with
    | none => simp [MerkleTree.compareS, MerkleTree.compare, ht, ho]
    | some r2 =>
      by_cases h : r1.hash_value = r2.hash_value <;>
        simp [MerkleTree.compareS, MerkleTree.compare, ht, ho, h]

/-- C9: `compare` is pure — the state-threaded embedding leaves both
trees exactly as they were, and running it again on the returned states
returns the same list. -/
theorem compareS_pure (t other : MerkleTree) :
    (t.compareS other).2.1 = t ∧ (t.compareS other).2.2 = other ∧
      ((t.compareS other).2.1.compareS (t.compareS other).2.2).1 =
        (t.compareS other).1 := by
  simp [compareS_eq]

/-! ## `build_from_chunks` and the `chunk_nodes` dictionary -/

theorem mem_dinsert_self {α : Type} (d : List (String × α)) (k : String)
    (v : α) : (k, v) ∈ dinsert d k v := by
  induction d with
  | nil => exact List.mem_singleton.mpr rfl
  | cons q rest ih =>
    obtain ⟨k', v'⟩ := q
    by_cases hk : k' = k
    · rw [show dinsert ((k', v') :: rest) k v = (k, v) :: rest from by
        simp [dinsert, hk]]
      exact List.mem_cons_self _ _
    · rw [show dinsert ((k', v') :: rest) k v = (k', v') :: dinsert rest k v
        from by simp [dinsert, hk]]
      exact List.mem_cons_of_mem _ ih

theorem mem_dinsert_of_ne {α : Type} (d : List (String × α)) (k : String)
    (v : α) (p : String × α) (hp : p ∈ d) (hne : p.1 ≠ k) :
    p ∈ dinsert d k v := by
  induction d with
  | nil => cases hp
  | cons q rest ih =>
    obtain ⟨k', v'⟩ := q
    by_cases hk : k' = k
    · rw [show dinsert ((k', v') :: rest) k v = (k, v) :: rest from by
        simp [dinsert, hk]]
      rcases List.mem_cons.mp hp with h | h
      · exact absurd (by rw [h, hk]) hne
      · exact List.mem_cons_of_mem _ h
    · rw [show dinsert ((k', v') :: rest) k v = (k', v') :: dinsert rest k v
        from by simp [dinsert, hk]]
      rcases List.mem_cons.mp hp with h | h
      · exact h ▸ List.mem_cons_self _ _
      · exact List.mem_cons_of_mem _ (ih h)

theorem dget?_eq_some_of_mem_nodup {α : Type} (d : List (String × α))
    (hnd : (dkeys d).Nodup) (p : String × α) (hp : p ∈ d) :
    dget? d p.1 = some p.2 := by
  induction d with
  | nil => cases hp
  | cons q rest ih =>
    obtain ⟨k', v'⟩ := q
    simp only [dkeys, List.map_cons, List.nodup_cons] at hnd
    rcases List.mem_cons.mp hp with h | h
    · rw [h]
      simp [dget?, List.find?]
    · have hne : p.1 ≠ k' := by
        intro e
        exact hnd.1 (e ▸ List.mem_map_of_mem Prod.fst h)
      have hbeq : (k' == p.1) = false := by
        rw [beq_eq_false_iff_ne]
        exact Ne.symm hne
      rw [show dget? ((k', v') :: rest) p.1 = dget? rest p.1 from by
        simp [dget?, List.find?, hbeq]]
      exact ih hnd.2 h

theorem not_mem_keys_of_dget?_none {α : Type} (d : List (String × α))
    (k : String) (h : dget? d k = none) : k ∉ dkeys d := by
  intro hmem
  obtain ⟨v, hv⟩ := dget?_isSome_of_mem_keys d k hmem
  rw [hv] at h
  cases h

theorem mem_keys_of_dget?_some {α : Type} (d : List (String × α))
    (k : String) (v : α) (h : dget? d k = some v) : k ∈ dkeys d :=
  List.mem_map_of_mem Prod.fst (dget?_mem d k v h)

theorem dkeys_dinsert_of_mem {α : Type} (d : List (String × α)) (k : String)
    (v : α) (h : k ∈ dkeys d) : dkeys (dinsert d k v) = dkeys d := by
  induction d with
  | nil => cases h
  | cons q rest ih =>
    obtain ⟨k', v'⟩ := q
    by_cases hk : k' = k
    · rw [show dinsert ((k', v') :: rest) k v = (k, v) :: rest from by
        simp [dinsert, hk]]
      simp [dkeys, hk]
    · rw [show dinsert ((k', v') :: rest) k v = (k', v') :: dinsert rest k v
        from by simp [dinsert, hk]]
      have h' : k ∈ dkeys rest := by
        simp only [dkeys, List.map_cons, List.mem_cons] at h
        rcases h with h'' | h''
        · exact absurd h''.symm hk
        · exact h''
      simp only [dkeys, List.map_cons]
      rw [show (List.map Prod.fst (dinsert rest k v) : List String) =
        dkeys (dinsert rest k v) from rfl, ih h']
      rfl

theorem dappendChunk_nodup (d : List (String × List CodeChunk)) (k : String)
    (c : CodeChunk) (hnd : (dkeys d).Nodup) :
    (dkeys (dappendChunk d k c)).Nodup := by
  rcases hget : dget? d k with _ | l
  · rw [dappendChunk, hget]
    have : dkeys (d ++ [(k, [c])]) = dkeys d ++ [k] := by simp [dkeys]
    rw [this]
    simp only [List.nodup_append, List.nodup_cons, List.not_mem_nil,
      not_false_iff, List.nodup_nil, and_true, true_and]
    refine ⟨hnd, ?_⟩
    intro a ha hb
    rw [List.mem_singleton.mp hb] at ha
    exact not_mem_keys_of_dget?_none d k hget ha
  · rw [dappendChunk, hget]
    rw [dkeys_dinsert_of_mem d k _ (mem_keys_of_dget?_some d k l hget)]
    exact hnd

theorem dappendChunk_preserve (d : List (String × List CodeChunk))
    (k : String) (ch : CodeChunk) (hnd : (dkeys d).Nodup)
    (e : String × List CodeChunk) (he : e ∈ d) (c : CodeChunk)
    (hc : c ∈ e.2) : ∃ e2 ∈ dappendChunk d k ch, c ∈ e2.2 := by
  by_cases hk : e.1 = k
  · have hget : dget? d k = some e.2 := hk ▸ dget?_eq_some_of_mem_nodup d hnd e he
    rw [dappendChunk, hget]
    exact ⟨(k, e.2 ++ [ch]), mem_dinsert_self d k (e.2 ++ [ch]),
      List.mem_append_left _ hc⟩
  · rcases hget : dget? d k with _ | l
    · rw [dappendChunk, hget]
      exact ⟨e, List.mem_append_left _ he, hc⟩
    · rw [dappendChunk, hget]
      exact ⟨e, mem_dinsert_of_ne d k (l ++ [ch]) e he hk, hc⟩

theorem dappendChunk_new (d : List (String × List CodeChunk))
    (ch : CodeChunk) :
    ∃ e ∈ dappendChunk d ch.path ch, ch ∈ e.2 := by
  rcases hget : dget? d ch.path with _ | l
  · rw [dappendChunk, hget]
    exact ⟨(ch.path, [ch]), List.mem_append_right _ (List.mem_singleton.mpr rfl),
      List.mem_singleton.mpr rfl⟩
  · rw [dappendChunk, hget]
    exact ⟨(ch.path, l ++ [ch]), mem_dinsert_self d ch.path (l ++ [ch]),
      List.mem_append_right _ (List.mem_singleton.mpr rfl)⟩

theorem foldl_dappend_preserve (chunks : List CodeChunk)
    (d : List (String × List CodeChunk)) (hnd : (dkeys d).Nodup)
    (c : CodeChunk) (h : ∃ e ∈ d, c ∈ e.2) :
    ∃ e ∈ chunks.foldl (fun dd ch => dappendChunk dd ch.path ch) d,
      c ∈ e.2 := by
  induction chunks generalizing d with
  | nil => exact h
  | cons ch rest ih =>
    rw [List.foldl_cons]
    obtain ⟨e, he, hce⟩ := h
    exact ih (dappendChunk d ch.path ch) (dappendChunk_nodup d ch.path ch hnd)
      (dappendChunk_preserve d ch.path ch hnd e he c hce)

theorem exists_entry_foldl_dappend (chunks : List CodeChunk)
    (d : List (String × List CodeChunk)) (hnd : (dkeys d).Nodup)
    (c : CodeChunk) (hc : c ∈ chunks) :
    ∃ e ∈ chunks.foldl (fun dd ch => dappendChunk dd ch.path ch) d,
      c ∈ e.2 := by
  induction chunks generalizing d with
  | nil => cases hc
  | cons ch rest ih =>
    rw [List.foldl_cons]
    rcases List.mem_cons.mp hc with h | h
    · exact foldl_dappend_preserve rest (dappendChunk d ch.path ch)
        (dappendChunk_nodup d ch.path ch hnd) c
        (h ▸ dappendChunk_new d ch)
    · exact ih (dappendChunk d ch.path ch)
        (dappendChunk_nodup d ch.path ch hnd) h

theorem dkeys_subset_foldl_dinsert (cs : List CodeChunk)
    (d : List (String × MerkleNode)) :
    dkeys d ⊆ dkeys (cs.foldl
      (fun cn c => dinsert cn c.doc_id (MerkleNode.mk c.doc_id [])) d) := by
  induction cs generalizing d with
  | nil => exact fun x hx => hx
  | cons c cs ih =>
    rw [List.foldl_cons]
    intro x hx
    exact ih (dinsert d c.doc_id (MerkleNode.mk c.doc_id [])) <|
      (mem_dkeys_dinsert d c.doc_id _ x).mpr (Or.inr hx)

theorem doc_id_mem_foldl_dinsert (cs : List CodeChunk)
    (d : List (String × MerkleNode)) (c : CodeChunk) (hc : c ∈ cs) :
    c.doc_id ∈ dkeys (cs.foldl
      (fun cn c => dinsert cn c.doc_id (MerkleNode.mk c.doc_id [])) d) := by
  induction cs generalizing d with
  | nil => cases hc
  | cons c' cs ih =>
    rw [List.foldl_cons]
    rcases List.mem_cons.mp hc with h | h
    · exact dkeys_subset_foldl_dinsert cs _ <|
        (mem_dkeys_dinsert d c'.doc_id _ c.doc_id).mpr (Or.inl (by rw [h]))
    · exact ih _ h

theorem dkeys_subset_foldl_buildStep
    (entries : List (String × List CodeChunk))
    (acc : List (String × MerkleNode) × List MerkleNode) :
    dkeys acc.1 ⊆ dkeys (entries.foldl buildStep acc).1 := by
  induction entries generalizing acc with
  | nil => exact fun x hx => hx
  | cons e rest ih =>
    rw [List.foldl_cons]
    intro x hx
    exact ih (buildStep acc e) (dkeys_subset_foldl_dinsert e.2 acc.1 hx)

theorem doc_id_mem_foldl_buildStep
    (entries : List (String × List CodeChunk))
    (acc : List (String × MerkleNode) × List MerkleNode)
    (e : String × List CodeChunk) (he : e ∈ entries) (c : CodeChunk)
    (hc : c ∈ e.2) :
    c.doc_id ∈ dkeys (entries.foldl buildStep acc).1 := by
  induction entries generalizing acc with
  | nil => cases he
  | cons e' rest ih =>
    rw [List.foldl_cons]
    rcases List.mem_cons.mp he with h | h
    · exact dkeys_subset_foldl_buildStep rest (buildStep acc e')
        (doc_id_mem_foldl_dinsert e'.2 acc.1 c (h ▸ hc))
    · exact ih (buildStep acc e') h

theorem foldl_buildStep_snd_indep
    (entries : List (String × List CodeChunk))
    (cn cn' : List (String × MerkleNode)) (fns : List MerkleNode) :
    (entries.foldl buildStep (cn, fns)).2 =
      (entries.foldl buildStep (cn', fns)).2 := by
  induction entries generalizing cn cn' fns with
  | nil => rfl
  | cons e rest ih =>
    rw [List.foldl_cons, List.foldl_cons]
    exact ih _ _ _

/-- The root set by `build_from_chunks` depends only on the chunk list,
not on the receiving tree's prior state. -/
theorem build_root_independent (t : MerkleTree) (chunks : List CodeChunk) :
    (t.build_from_chunks chunks).root =
      (MerkleTree.init.build_from_chunks chunks).root := by
  rw [MerkleTree.build_from_chunks, MerkleTree.build_from_chunks]
  have := foldl_buildStep_snd_indep
    (chunks.foldl (fun d c => dappendChunk d c.path c) [])
    t.chunk_nodes MerkleTree.init.chunk_nodes []
  simp only [this]

/-- The `chunk_nodes` dictionary a build produces, as the underlying
fold. -/
theorem build_chunk_nodes_eq (t : MerkleTree) (chunks : List CodeChunk) :
    (t.build_from_chunks chunks).chunk_nodes =
      ((chunks.foldl (fun d c => dappendChunk d c.path c) []).foldl
        buildStep (t.chunk_nodes, [])).1 := rfl

/-- C10: `build_from_chunks` only ever adds `chunk_nodes` entries — after
a second build on the same tree, every identifier known to the first
build is still in the leaf index, every chunk of the second list is in
it, and the root reflects only the second chunk list. -/
theorem build_leaf_index_monotone (chunks1 chunks2 : List CodeChunk)
    (id : String) (c : CodeChunk)
    (hid : id ∈ dkeys (MerkleTree.init.build_from_chunks chunks1).chunk_nodes)
    (hc : c ∈ chunks2) :
    id ∈ dkeys ((MerkleTree.init.build_from_chunks chunks1).build_from_chunks
      chunks2).chunk_nodes ∧
    c.doc_id ∈ dkeys ((MerkleTree.init.build_from_chunks
      chunks1).build_from_chunks chunks2).chunk_nodes ∧
    ((MerkleTree.init.build_from_chunks chunks1).build_from_chunks
      chunks2).root = (MerkleTree.init.build_from_chunks chunks2).root := by
  refine ⟨?_, ?_, build_root_independent _ chunks2⟩
  · rw [build_chunk_nodes_eq]
    exact dkeys_subset_foldl_buildStep _ _ hid
  · obtain ⟨e, he, hce⟩ :=
      exists_entry_foldl_dappend chunks2 [] (by simp [dkeys]) c hc
    rw [build_chunk_nodes_eq]
    exact doc_id_mem_foldl_buildStep _ _ e he c hce

/-- Witness for C10: rebuilding the scenario tree from just the new `b`
chunk keeps `a`'s identifier in the leaf index. -/
theorem build_leaf_index_monotone_witness :
    (demoChunkA.doc_id ∈ dkeys demoTreeBefore.chunk_nodes ∧
      demoChunkB3 ∈ [demoChunkB3]) ∧
    (demoChunkA.doc_id ∈
        dkeys (demoTreeBefore.build_from_chunks [demoChunkB3]).chunk_nodes ∧
      demoChunkB3.doc_id ∈
        dkeys (demoTreeBefore.build_from_chunks [demoChunkB3]).chunk_nodes ∧
      (demoTreeBefore.build_from_chunks [demoChunkB3]).root =
        (MerkleTree.init.build_from_chunks [demoChunkB3]).root) := by
  have h1 : demoChunkA.doc_id ∈ dkeys demoTreeBefore.chunk_nodes := by decide
  exact ⟨⟨h1, List.mem_singleton.mpr rfl⟩,
    build_leaf_index_monotone [demoChunkA, demoChunkB] [demoChunkB3]
      demoChunkA.doc_id demoChunkB3 h1 (List.mem_singleton.mpr rfl)⟩

/-- C7: for a source file whose parse tree is a single class definition
whose body block holds exactly two function definitions, `chunk_code`
yields exactly three chunks in order — the class chunk, then the two
method chunks in source order — and every chunk's `start_line` and
`end_line` are the parser's 0-based rows plus one, inclusive. -/
theorem chunk_class_two_methods (root cls b m1 m2 : TSNode)
    (code path : String)
    (hroot : root.children = [cls])
    (hcls : cls.type = "class_definition")
    (hbody : cls.children.find? (fun ch => ch.type == "block") = some b)
    (hmeth : b.children.filter
      (fun ch => ch.type == "function_definition") = [m1, m2]) :
    chunk_code root code path =
      [extract_chunk cls code "class" path,
       extract_chunk m1 code "method" path,
       extract_chunk m2 code "method" path] ∧
    (chunk_code root code path).map CodeChunk.type =
      ["class", "method", "method"] ∧
    (chunk_code root code path).map (fun ch => (ch.start_line, ch.end_line)) =
      [(cls.start_point.1 + 1, cls.end_point.1 + 1),
       (m1.start_point.1 + 1, m1.end_point.1 + 1),
       (m2.start_point.1 + 1, m2.end_point.1 + 1)] := by
  have h : chunk_code root code path =
      [extract_chunk cls code "class" path,
       extract_chunk m1 code "method" path,
       extract_chunk m2 code "method" path] := by
    rw [chunk_code, hroot]
    simp only [List.flatMap_cons, List.flatMap_nil, List.append_nil]
    rw [if_pos hcls, process_class, hbody]
    show extract_chunk cls code "class" path ::
      (b.children.filter (fun ch => ch.type == "function_definition")).map
        (fun ch => extract_chunk ch code "method" path) = _
    rw [hmeth]
    rfl
  refine ⟨h, ?_, ?_⟩ <;> rw [h] <;> simp [extract_chunk]

/-- The source listing of the two-method class scenario. -/
def demoCode : String :=
  "class Foo:\n    def m1(self):\n        return 1\n\n    def m2(self):\n        return 2\n"

/-- Parse-tree node of the first method, `m1`, rows 1-2. -/
def demoM1 : TSNode :=
  .mk "function_definition" 15 45 (1, 4) (2, 16)
    [.mk "def" 15 18 (1, 4) (1, 7) [],
     .mk "identifier" 19 21 (1, 8) (1, 10) [],
     .mk "parameters" 21 27 (1, 10) (1, 16) [],
     .mk ":" 27 28 (1, 16) (1, 17) [],
     .mk "block" 37 45 (2, 8) (2, 16)
       [.mk "return_statement" 37 45 (2, 8) (2, 16) []]]

/-- Parse-tree node of the second method, `m2`, rows 4-5. -/
def demoM2 : TSNode :=
  .mk "function_definition" 51 81 (4, 4) (5, 16)
    [.mk "def" 51 54 (4, 4) (4, 7) [],
     .mk "identifier" 55 57 (4, 8) (4, 10) [],
     .mk "parameters" 57 63 (4, 10) (4, 16) [],
     .mk ":" 63 64 (4, 16) (4, 17) [],
     .mk "block" 73 81 (5, 8) (5, 16)
       [.mk "return_statement" 73 81 (5, 8) (5, 16) []]]

/-- The class body block holding the two methods. -/
def demoClassBlock : TSNode :=
  .mk "block" 15 81 (1, 4) (5, 16) [demoM1, demoM2]

/-- The class-definition node, rows 0-5. -/
def demoClass : TSNode :=
  .mk "class_definition" 0 81 (0, 0) (5, 16)
    [.mk "class" 0 5 (0, 0) (0, 5) [],
     .mk "identifier" 6 9 (0, 6) (0, 9) [],
     .mk ":" 9 10 (0, 9) (0, 10) [],
     demoClassBlock]

/-- The module root node of the scenario file. -/
def demoModule : TSNode :=
  .mk "module" 0 82 (0, 0) (6, 0) [demoClass]

/-- Witness for C7 at the concrete two-method class parse tree. -/
theorem chunk_class_two_methods_witness :
    (demoModule.children = [demoClass] ∧
      demoClass.type = "class_definition" ∧
      demoClass.children.find? (fun ch => ch.type == "block") =
        some demoClassBlock ∧
      demoClassBlock.children.filter
        (fun ch => ch.type == "function_definition") = [demoM1, demoM2]) ∧
    (chunk_code demoModule demoCode "demo.py").map CodeChunk.type =
      ["class", "method", "method"] ∧
    (chunk_code demoModule demoCode "demo.py").map
        (fun ch => (ch.start_line, ch.end_line)) =
      [(1, 6), (2, 3), (5, 6)] := by
  refine ⟨⟨rfl, rfl, rfl, rfl⟩, ?_, ?_⟩
  · exact (chunk_class_two_methods demoModule demoClass demoClassBlock demoM1
      demoM2 demoCode "demo.py" rfl rfl rfl rfl).2.1
  · exact (chunk_class_two_methods demoModule demoClass demoClassBlock demoM1
      demoM2 demoCode "demo.py" rfl rfl rfl rfl).2.2
